import Mathlib

/-!
# Resampling kernels of `alg/gdalresamplingkernels.h`

A shallow embedding of the two one-dimensional interpolation kernels
`CubicKernel` and `CubicSplineKernel`, and proofs of their properties.

The C++ functions compute on `double`.  Two readings of the code are given.

* The exact reading, `CubicKernel` and `CubicSplineKernel`: every `double`
  operation is the exact operation of an ordered field `K` and every literal
  is the decimal number it spells.  The definitions are stated for an
  arbitrary linearly ordered field, so they run on `ℚ` and the theorems hold
  on `ℝ`.
* The rounded reading, `CubicKernelDouble` and `CubicSplineKernelDouble`:
  a `double` is the rational number it stands for and every operation is the
  exact one followed by `roundDouble`, rounding to the nearest number with a
  53-bit significand, ties to the even significand.  The exponent range is
  unbounded, each operation is rounded on its own, and NaN and infinities are
  absent.
-/

namespace GdalResamplingKernels

variable {K : Type} [LinearOrderedField K]

/-- The function `CubicKernel` of the header (lines 39-59): `fabs` is taken
once, the square is the square of the argument itself, and the three branches
are tested in the order of the source. -/
def CubicKernel (dfX : K) : K :=
  let dfAbsX := |dfX|
  if dfAbsX ≤ 1.0 then
    let dfX2 := dfX * dfX
    dfX2 * (1.5 * dfAbsX - 2.5) + 1
  else if dfAbsX ≤ 2.0 then
    let dfX2 := dfX * dfX
    dfX2 * (-0.5 * dfAbsX + 2.5) - 4 * dfAbsX + 2
  else
    0.0

/-- The function `CubicSplineKernel` of the header (lines 61-76): early exit
above `2.0`, then the four guarded cubes and the final weighted sum multiplied
by the literal `0.16666666666666666667` as the source writes it, with no
absolute value taken of the argument. -/
def CubicSplineKernel (dfVal : K) : K :=
  if dfVal > 2.0 then
    0.0
  else
    let xm1 := dfVal - 1.0
    let xp1 := dfVal + 1.0
    let xp2 := dfVal + 2.0
    let a := if xp2 ≤ 0.0 then 0.0 else xp2 * xp2 * xp2
    let b := if xp1 ≤ 0.0 then 0.0 else xp1 * xp1 * xp1
    let c := if dfVal ≤ 0.0 then 0.0 else dfVal * dfVal * dfVal
    let d := if xm1 ≤ 0.0 then 0.0 else xm1 * xm1 * xm1
    0.16666666666666666667 * (a - (4.0 * b) + (6.0 * c) - (4.0 * d))

/-- The literal `0.16666666666666666667` of the last line of
`CubicSplineKernel`, named for use in the statements below.  It is a decimal
number close to, and different from, one sixth. -/
def splineFactor : K := 0.16666666666666666667

/-- The three-region definition as section 4.1 of the specification words it,
entirely in terms of `a = |x|`. -/
def cubicReference (x : K) : K :=
  let a := |x|
  if a ≤ 1 then a ^ 2 * (1.5 * a - 2.5) + 1
  else if a ≤ 2 then a ^ 2 * (-0.5 * a + 2.5) - 4 * a + 2
  else 0

/-- The truncated-cube helper `tc` as section 4.2 of the specification words
it. -/
def tc (v : K) : K := if v ≤ 0 then 0 else v ^ 3

/-! ## The rounded reading: arithmetic on `double` -/

/-- The power `2 ^ e` as a rational number, for an integer exponent `e`. -/
def pow2 (e : ℤ) : ℚ :=
  if 0 ≤ e then ((2 ^ e.toNat : ℕ) : ℚ) else mkRat 1 (2 ^ (-e).toNat)

/-- The integer binary logarithm `⌊log₂ n⌋` of `n ≥ 1` (and `0` for `n = 0`),
by repeated halving; the first argument bounds the number of halvings and
`n` itself is always enough. -/
def log2Fuel : ℕ → ℕ → ℕ
  | 0, _ => 0
  | fuel + 1, n => if n < 2 then 0 else log2Fuel fuel (n / 2) + 1

/-- The binary exponent `⌊log₂ |q|⌋` of a non-zero rational `q`: the
difference of the logarithms of numerator and denominator, lowered by one
when that overshoots. -/
def binaryExponent (q : ℚ) : ℤ :=
  let n := q.num.natAbs
  let e0 : ℤ := (log2Fuel n n : ℤ) - (log2Fuel q.den q.den : ℤ)
  if (if q < 0 then -q else q) < pow2 e0 then e0 - 1 else e0

/-- The integer nearest to `r`, a tie going to the even integer. -/
def roundHalfEven (r : ℚ) : ℤ :=
  let f := Rat.floor r
  let t := r - f
  if t < 1 / 2 then f else if 1 / 2 < t then f + 1 else if f % 2 = 0 then f else f + 1

/-- Rounding of a real result to `double`: the nearest rational of the form
`m * 2 ^ e` with `2 ^ 52 ≤ |m| < 2 ^ 53` (or `|m| = 2 ^ 53`, the next binade),
ties to even `m`; zero stays zero.  The exponent `e` is not bounded. -/
def roundDouble (q : ℚ) : ℚ :=
  if q = 0 then 0 else
    let e := binaryExponent q - 52
    (roundHalfEven (q / pow2 e) : ℚ) * pow2 e

/-- The `double` sum `a + b`. -/
def dadd (a b : ℚ) : ℚ := roundDouble (a + b)

/-- The `double` difference `a - b`. -/
def dsub (a b : ℚ) : ℚ := roundDouble (a - b)

/-- The `double` product `a * b`. -/
def dmul (a b : ℚ) : ℚ := roundDouble (a * b)

/-- The function `CubicKernel` of the header (lines 39-59) in the rounded
reading: the same statements, every `double` operation rounded in the order
C++ evaluates it.  `fabs` is exact. -/
def CubicKernelDouble (dfX : ℚ) : ℚ :=
  let dfAbsX := if dfX < 0 then -dfX else dfX
  if dfAbsX ≤ 1.0 then
    let dfX2 := dmul dfX dfX
    dadd (dmul dfX2 (dsub (dmul 1.5 dfAbsX) 2.5)) 1
  else if dfAbsX ≤ 2.0 then
    let dfX2 := dmul dfX dfX
    dadd (dsub (dmul dfX2 (dadd (dmul (-0.5) dfAbsX) 2.5)) (dmul 4 dfAbsX)) 2
  else
    0.0

/-- The function `CubicSplineKernel` of the header (lines 61-76) in the
rounded reading: the same statements, every `double` operation rounded in the
order C++ evaluates it, the literal `0.16666666666666666667` rounded to the
nearest `double`. -/
def CubicSplineKernelDouble (dfVal : ℚ) : ℚ :=
  if dfVal > 2.0 then
    0.0
  else
    let xm1 := dsub dfVal 1.0
    let xp1 := dadd dfVal 1.0
    let xp2 := dadd dfVal 2.0
    let a := if xp2 ≤ 0.0 then 0.0 else dmul (dmul xp2 xp2) xp2
    let b := if xp1 ≤ 0.0 then 0.0 else dmul (dmul xp1 xp1) xp1
    let c := if dfVal ≤ 0.0 then 0.0 else dmul (dmul dfVal dfVal) dfVal
    let d := if xm1 ≤ 0.0 then 0.0 else dmul (dmul xm1 xm1) xm1
    dmul (roundDouble 0.16666666666666666667)
      (dsub (dadd (dsub a (dmul 4.0 b)) (dmul 6.0 c)) (dmul 4.0 d))

/-! ## Soundness of the rounding to `double` -/

theorem log2Fuel_spec (fuel n : ℕ) (hn : 1 ≤ n) (hf : n ≤ fuel) :
    2 ^ log2Fuel fuel n ≤ n ∧ n < 2 ^ (log2Fuel fuel n + 1) := by
  induction fuel generalizing n with
  | zero => omega
  | succ k ih =>
    unfold log2Fuel
    split_ifs with h2
    · constructor <;> simp <;> omega
    · have h1 : 1 ≤ n / 2 := by omega
      have hk : n / 2 ≤ k := by omega
      obtain ⟨l, u⟩ := ih (n / 2) h1 hk
      rw [pow_succ, pow_succ]
      rw [pow_succ] at u
      constructor <;> omega

theorem pow2_eq (e : ℤ) : pow2 e = (2 : ℚ) ^ e := by
  unfold pow2
  split_ifs with h
  · obtain ⟨n, rfl⟩ := Int.eq_ofNat_of_zero_le h
    simp
  · obtain ⟨n, hn⟩ := Int.eq_ofNat_of_zero_le (by omega : 0 ≤ -e)
    have he : e = -(n : ℤ) := by omega
    subst he
    simp [Rat.mkRat_eq_div]

theorem pow2_pos (e : ℤ) : 0 < pow2 e := by
  rw [pow2_eq]; positivity

theorem binaryExponent_spec (q : ℚ) (hq : q ≠ 0) :
    pow2 (binaryExponent q) ≤ |q| ∧ |q| < pow2 (binaryExponent q + 1) := by
  have habs : (if q < 0 then -q else q) = |q| := by
    split_ifs with h
    · rw [abs_of_neg h]
    · rw [abs_of_nonneg (not_lt.mp h)]
  have hn1 : 1 ≤ q.num.natAbs := Nat.one_le_iff_ne_zero.mpr (by simpa using hq)
  have hd1 : 1 ≤ q.den := q.den_pos
  obtain ⟨nl, nu⟩ := log2Fuel_spec _ _ hn1 (le_refl _)
  obtain ⟨dl, du⟩ := log2Fuel_spec _ _ hd1 (le_refl _)
  have hqa : |q| = (q.num.natAbs : ℚ) / (q.den : ℚ) := by
    have hna : (q.num.natAbs : ℚ) = |(q.num : ℚ)| := by
      rw [Nat.cast_natAbs, Int.cast_abs]
    conv_lhs => rw [← Rat.num_div_den q]
    rw [abs_div, Nat.abs_cast, hna]
  have hdpos : (0 : ℚ) < q.den := by exact_mod_cast q.den_pos
  set a := log2Fuel q.num.natAbs q.num.natAbs with ha
  set b := log2Fuel q.den q.den with hb
  have nlq : (2 : ℚ) ^ a ≤ (q.num.natAbs : ℚ) := by exact_mod_cast nl
  have nuq : (q.num.natAbs : ℚ) < (2 : ℚ) ^ (a + 1) := by exact_mod_cast nu
  have dlq : (2 : ℚ) ^ b ≤ (q.den : ℚ) := by exact_mod_cast dl
  have duq : (q.den : ℚ) < (2 : ℚ) ^ (b + 1) := by exact_mod_cast du
  have e1 : (2 : ℚ) ^ ((a : ℤ) - (b : ℤ) - 1) = 2 ^ a / 2 ^ (b + 1) := by
    rw [show ((a : ℤ) - (b : ℤ) - 1) = (a : ℤ) - ((b + 1 : ℕ) : ℤ) by push_cast; ring,
      zpow_sub₀ (by norm_num), zpow_natCast, zpow_natCast]
  have e2 : (2 : ℚ) ^ ((a : ℤ) - (b : ℤ) + 1) = 2 ^ (a + 1) / 2 ^ b := by
    rw [show ((a : ℤ) - (b : ℤ) + 1) = ((a + 1 : ℕ) : ℤ) - (b : ℤ) by push_cast; ring,
      zpow_sub₀ (by norm_num), zpow_natCast, zpow_natCast]
  have lower : (2 : ℚ) ^ ((a : ℤ) - (b : ℤ) - 1) ≤ |q| := by
    rw [e1, hqa]
    exact div_le_div₀ (by positivity) nlq hdpos duq.le
  have upper : |q| < (2 : ℚ) ^ ((a : ℤ) - (b : ℤ) + 1) := by
    rw [e2, hqa]
    exact div_lt_div₀ nuq dlq (by positivity) (by positivity)
  unfold binaryExponent
  simp only [habs, ← ha, ← hb]
  split_ifs with h
  · rw [pow2_eq] at h
    rw [pow2_eq, pow2_eq]
    refine ⟨lower, ?_⟩
    rw [show ((a : ℤ) - (b : ℤ) - 1 + 1) = (a : ℤ) - (b : ℤ) by ring]
    exact h
  · rw [pow2_eq] at h
    rw [pow2_eq, pow2_eq]
    exact ⟨not_lt.mp h, upper⟩

theorem roundHalfEven_spec (r : ℚ) :
    |(roundHalfEven r : ℚ) - r| ≤ 1 / 2 ∧
      (|(roundHalfEven r : ℚ) - r| = 1 / 2 → roundHalfEven r % 2 = 0) := by
  have hf : Rat.floor r = ⌊r⌋ := rfl
  have h1 : (⌊r⌋ : ℚ) ≤ r := Int.floor_le r
  have h2 : r < (⌊r⌋ : ℚ) + 1 := Int.lt_floor_add_one r
  unfold roundHalfEven
  simp only [hf]
  split_ifs with ha hb hc
  · have e : |(⌊r⌋ : ℚ) - r| = r - ⌊r⌋ := by
      rw [abs_sub_comm, abs_of_nonneg (by linarith)]
    rw [e]
    exact ⟨ha.le, fun h => absurd h ha.ne⟩
  · have e : |((⌊r⌋ + 1 : ℤ) : ℚ) - r| = ⌊r⌋ + 1 - r := by
      push_cast
      rw [abs_of_nonneg (by linarith)]
    rw [e]
    exact ⟨by linarith, fun h => absurd h (by linarith : (⌊r⌋ : ℚ) + 1 - r ≠ 1 / 2)⟩
  · have e : |(⌊r⌋ : ℚ) - r| = r - ⌊r⌋ := by
      rw [abs_sub_comm, abs_of_nonneg (by linarith)]
    rw [e]
    exact ⟨by linarith, fun _ => hc⟩
  · have e : |((⌊r⌋ + 1 : ℤ) : ℚ) - r| = ⌊r⌋ + 1 - r := by
      push_cast
      rw [abs_of_nonneg (by linarith)]
    rw [e]
    exact ⟨by linarith, fun _ => by omega⟩

/-- The result of `roundDouble` is `m * 2 ^ (e - 52)` for an integer
significand `m` of 53 bits, `e` being the binary exponent of the argument,
lies within half a unit in the last place of the argument, and has an even
significand when it lies exactly half a unit away. -/
theorem roundDouble_spec (q : ℚ) (hq : q ≠ 0) :
    ∃ m : ℤ, roundDouble q = (m : ℚ) * (2 : ℚ) ^ (binaryExponent q - 52) ∧
      2 ^ 52 ≤ |m| ∧ |m| ≤ 2 ^ 53 ∧
      |roundDouble q - q| ≤ (2 : ℚ) ^ (binaryExponent q - 53) ∧
      (|roundDouble q - q| = (2 : ℚ) ^ (binaryExponent q - 53) → m % 2 = 0) := by
  obtain ⟨lo, hi⟩ := binaryExponent_spec q hq
  rw [pow2_eq] at lo hi
  set e := binaryExponent q with he
  have hp : (0 : ℚ) < (2 : ℚ) ^ (e - 52) := by positivity
  set s := q / (2 : ℚ) ^ (e - 52) with hs
  have hsq : q = s * (2 : ℚ) ^ (e - 52) := by
    rw [hs]; field_simp
  have habs : |s| = |q| / (2 : ℚ) ^ (e - 52) := by
    rw [hs, abs_div, abs_of_pos hp]
  have e52 : (2 : ℚ) ^ e = 2 ^ 52 * (2 : ℚ) ^ (e - 52) := by
    rw [show e = 52 + (e - 52) by ring, zpow_add₀ (by norm_num)]
    norm_num
  have e53 : (2 : ℚ) ^ (e + 1) = 2 ^ 53 * (2 : ℚ) ^ (e - 52) := by
    rw [show e + 1 = 53 + (e - 52) by ring, zpow_add₀ (by norm_num)]
    norm_num
  have e53' : (2 : ℚ) ^ (e - 52) = 2 * (2 : ℚ) ^ (e - 53) := by
    rw [show e - 52 = 1 + (e - 53) by ring, zpow_add₀ (by norm_num)]
    norm_num
  have slo : (2 : ℚ) ^ 52 ≤ |s| := by
    rw [habs, le_div_iff₀ hp, ← e52]; exact lo
  have shi : |s| < (2 : ℚ) ^ 53 := by
    rw [habs, div_lt_iff₀ hp, ← e53]; exact hi
  obtain ⟨near, tie⟩ := roundHalfEven_spec s
  set m := roundHalfEven s with hm
  have hr : roundDouble q = (m : ℚ) * (2 : ℚ) ^ (e - 52) := by
    unfold roundDouble
    rw [if_neg hq]
    simp only [pow2_eq, ← he, ← hs, ← hm]
  have hmabs : ((|m| : ℤ) : ℚ) = |(m : ℚ)| := by push_cast; rfl
  have t1 : |s| - 1 / 2 ≤ |(m : ℚ)| := by
    have := abs_sub_abs_le_abs_sub s (m : ℚ)
    rw [abs_sub_comm] at this
    linarith
  have t2 : |(m : ℚ)| ≤ |s| + 1 / 2 := by
    have := abs_sub_abs_le_abs_sub (m : ℚ) s
    linarith
  have hp3 : (0 : ℚ) < (2 : ℚ) ^ (e - 53) := by positivity
  have hd : |roundDouble q - q| = |(m : ℚ) - s| * (2 * (2 : ℚ) ^ (e - 53)) := by
    rw [hr, ← e53', ← abs_of_pos hp, ← abs_mul, abs_of_pos hp, sub_mul, ← hsq]
  refine ⟨m, hr, ?_, ?_, ?_, ?_⟩
  · have h : ((2 ^ 52 - 1 : ℤ) : ℚ) < ((|m| : ℤ) : ℚ) := by
      rw [hmabs]; push_cast; linarith
    have := Int.cast_lt.mp h
    omega
  · have h : ((|m| : ℤ) : ℚ) < ((2 ^ 53 + 1 : ℤ) : ℚ) := by
      rw [hmabs]; push_cast; linarith
    have := Int.cast_lt.mp h
    omega
  · rw [hd]
    nlinarith [mul_le_mul_of_nonneg_right near hp3.le]
  · intro h
    rw [hd] at h
    apply tie
    have h' : (|(m : ℚ) - s| * 2 - 1) * (2 : ℚ) ^ (e - 53) = 0 := by linarith
    rcases mul_eq_zero.mp h' with h0 | h0
    · linarith
    · exact absurd h0 hp3.ne'

/-! ## Region lemmas for `CubicKernel` -/

theorem CubicKernel_inner (x : ℝ) (h : |x| ≤ 1) :
    CubicKernel x = x * x * (1.5 * |x| - 2.5) + 1 := by
  unfold CubicKernel
  norm_num [h]

theorem CubicKernel_middle (x : ℝ) (h1 : 1 < |x|) (h2 : |x| ≤ 2) :
    CubicKernel x = x * x * (-0.5 * |x| + 2.5) - 4 * |x| + 2 := by
  unfold CubicKernel
  norm_num [h2, not_le.mpr h1]

theorem CubicKernel_outer (x : ℝ) (h : 2 < |x|) : CubicKernel x = 0 := by
  unfold CubicKernel
  have h1 : ¬ |x| ≤ 1 := by linarith
  have h2 : ¬ |x| ≤ 2 := by linarith
  norm_num [h1, h2]

theorem CubicKernel_at_two_abs (x : ℝ) (h : |x| = 2) : CubicKernel x = 0 := by
  have hx : x * x = 4 := by
    rw [← abs_mul_abs_self x, h]; norm_num
  rw [CubicKernel_middle x (by rw [h]; norm_num) (by rw [h]), hx, h]
  norm_num

theorem CubicKernel_at_one_abs (x : ℝ) (h : |x| = 1) : CubicKernel x = 0 := by
  have hx : x * x = 1 := by
    rw [← abs_mul_abs_self x, h]; norm_num
  rw [CubicKernel_inner x (by rw [h]), hx, h]
  norm_num

/-! ## Region lemmas for `CubicSplineKernel` -/

theorem splineFactor_pos : (0 : ℝ) < splineFactor := by
  unfold splineFactor; norm_num

theorem tc_nonpos (v : ℝ) (h : v ≤ 0) : tc v = 0 := by
  unfold tc
  rw [if_pos h]

theorem tc_nonneg (v : ℝ) (h : 0 ≤ v) : tc v = v ^ 3 := by
  unfold tc
  split_ifs with h0
  · have hv : v = 0 := le_antisymm h0 h
    rw [hv]; norm_num
  · rfl

theorem spline_above (x : ℝ) (h : 2 < x) : CubicSplineKernel x = 0 := by
  unfold CubicSplineKernel
  norm_num [h]

theorem spline_unfold (x : ℝ) (h : x ≤ 2) :
    CubicSplineKernel x
      = splineFactor * (tc (x + 2) - 4 * tc (x + 1) + 6 * tc x - 4 * tc (x - 1)) := by
  unfold CubicSplineKernel tc splineFactor
  have h2 : ¬ x > 2 := not_lt.mpr h
  norm_num [h2]
  split_ifs <;> ring

theorem spline_below (x : ℝ) (h : x ≤ -2) : CubicSplineKernel x = 0 := by
  rw [spline_unfold x (by linarith), tc_nonpos _ (by linarith), tc_nonpos _ (by linarith),
    tc_nonpos _ (by linarith), tc_nonpos _ (by linarith)]
  norm_num

theorem spline_left_outer (x : ℝ) (h1 : -2 ≤ x) (h2 : x ≤ -1) :
    CubicSplineKernel x = splineFactor * (x + 2) ^ 3 := by
  rw [spline_unfold x (by linarith), tc_nonneg _ (by linarith), tc_nonpos _ (by linarith),
    tc_nonpos _ (by linarith), tc_nonpos _ (by linarith)]
  ring

theorem spline_left_inner (x : ℝ) (h1 : -1 ≤ x) (h2 : x ≤ 0) :
    CubicSplineKernel x = splineFactor * (4 - 6 * x ^ 2 - 3 * x ^ 3) := by
  rw [spline_unfold x (by linarith), tc_nonneg _ (by linarith), tc_nonneg _ (by linarith),
    tc_nonpos _ (by linarith), tc_nonpos _ (by linarith)]
  ring

theorem spline_right_inner (x : ℝ) (h1 : 0 ≤ x) (h2 : x ≤ 1) :
    CubicSplineKernel x = splineFactor * (4 - 6 * x ^ 2 + 3 * x ^ 3) := by
  rw [spline_unfold x (by linarith), tc_nonneg _ (by linarith), tc_nonneg _ (by linarith),
    tc_nonneg _ (by linarith), tc_nonpos _ (by linarith)]
  ring

theorem spline_right_outer (x : ℝ) (h1 : 1 ≤ x) (h2 : x ≤ 2) :
    CubicSplineKernel x = splineFactor * (2 - x) ^ 3 := by
  rw [spline_unfold x (by linarith), tc_nonneg _ (by linarith), tc_nonneg _ (by linarith),
    tc_nonneg _ (by linarith), tc_nonneg _ (by linarith)]
  ring

theorem spline_at_two : CubicSplineKernel (2 : ℝ) = 0 := by
  rw [spline_right_outer 2 (by norm_num) (le_refl _)]
  norm_num

/-! ## The kernels as functions of the absolute distance -/

theorem CubicKernel_inner_abs (x : ℝ) (h : |x| ≤ 1) :
    CubicKernel x = |x| ^ 2 * (1.5 * |x| - 2.5) + 1 := by
  rw [CubicKernel_inner x h, ← abs_mul_abs_self x]
  ring

theorem CubicKernel_middle_abs (x : ℝ) (h1 : 1 ≤ |x|) (h2 : |x| ≤ 2) :
    CubicKernel x = -(|x| - 1) * (|x| - 2) ^ 2 / 2 := by
  rcases eq_or_lt_of_le h1 with e | e
  · rw [CubicKernel_at_one_abs x e.symm, ← e]
    norm_num
  · rw [CubicKernel_middle x e h2, ← abs_mul_abs_self x]
    ring

theorem spline_inner_abs (x : ℝ) (h : |x| ≤ 1) :
    CubicSplineKernel x = splineFactor * (4 - 6 * |x| ^ 2 + 3 * |x| ^ 3) := by
  rcases le_total 0 x with h0 | h0
  · rw [abs_of_nonneg h0] at h ⊢
    exact spline_right_inner x h0 h
  · rw [abs_of_nonpos h0] at h ⊢
    rw [spline_left_inner x (by linarith) h0]
    ring

theorem spline_outer_abs (x : ℝ) (h1 : 1 ≤ |x|) (h2 : |x| ≤ 2) :
    CubicSplineKernel x = splineFactor * (2 - |x|) ^ 3 := by
  rcases le_total 0 x with h0 | h0
  · rw [abs_of_nonneg h0] at h1 h2 ⊢
    exact spline_right_outer x h1 h2
  · rw [abs_of_nonpos h0] at h1 h2 ⊢
    rw [spline_left_outer x (by linarith) (by linarith)]
    ring

theorem spline_far_abs (x : ℝ) (h : 2 ≤ |x|) : CubicSplineKernel x = 0 := by
  rcases le_abs.mp h with h1 | h1
  · rcases eq_or_lt_of_le h1 with e | e
    · rw [← e]; exact spline_at_two
    · exact spline_above x e
  · exact spline_below x (by linarith)

theorem CubicKernel_zero : CubicKernel (0 : ℝ) = 1 := by
  rw [CubicKernel_inner 0 (by norm_num)]; norm_num

theorem spline_inner_ge (x : ℝ) (h0 : 0 ≤ x) (h1 : x ≤ 1) :
    splineFactor ≤ CubicSplineKernel x := by
  rw [spline_right_inner x h0 h1]
  have hp : (1 : ℝ) ≤ 4 - 6 * x ^ 2 + 3 * x ^ 3 := by
    nlinarith [mul_nonneg h0 (sub_nonneg.mpr h1),
      mul_nonneg (mul_nonneg h0 h0) (sub_nonneg.mpr h1), sub_nonneg.mpr h1]
  nlinarith [mul_le_mul_of_nonneg_left hp splineFactor_pos.le]

theorem spline_outer_le (x : ℝ) (h1 : 1 ≤ x) (h2 : x ≤ 2) :
    CubicSplineKernel x ≤ splineFactor := by
  rw [spline_right_outer x h1 h2]
  have hb : (2 - x) ^ 3 ≤ 1 ^ 3 := pow_le_pow_left₀ (by linarith) (by linarith) 3
  nlinarith [mul_le_mul_of_nonneg_left hb splineFactor_pos.le]

theorem spline_outer_nonneg (x : ℝ) (h1 : 1 ≤ x) (h2 : x ≤ 2) :
    0 ≤ CubicSplineKernel x := by
  rw [spline_right_outer x h1 h2]
  exact mul_nonneg splineFactor_pos.le (pow_nonneg (by linarith) 3)

/-! ## Continuity of `CubicKernel` -/

theorem CubicKernel_continuous_real : Continuous (CubicKernel : ℝ → ℝ) := by
  have e : (CubicKernel : ℝ → ℝ) = fun x =>
      if |x| ≤ 1 then |x| ^ 2 * (1.5 * |x| - 2.5) + 1
      else if |x| ≤ 2 then -(|x| - 1) * (|x| - 2) ^ 2 / 2 else 0 := by
    funext x
    rcases le_or_lt |x| 1 with h1 | h1
    · rw [if_pos h1, CubicKernel_inner_abs x h1]
    rcases le_or_lt |x| 2 with h2 | h2
    · rw [if_neg (not_le.mpr h1), if_pos h2, CubicKernel_middle_abs x h1.le h2]
    · rw [if_neg (not_le.mpr h1), if_neg (not_le.mpr h2), CubicKernel_outer x h2]
  rw [e]
  refine Continuous.if_le (by fun_prop) (Continuous.if_le (by fun_prop) continuous_const
    continuous_abs continuous_const ?_) continuous_abs continuous_const ?_
  · intro x hx
    rw [hx]; norm_num
  · intro x hx
    rw [hx]; norm_num

/-! ## Differentiability of `CubicKernel` -/

theorem CubicKernel_far (x : ℝ) (h : 2 ≤ |x|) : CubicKernel x = 0 := by
  rcases eq_or_lt_of_le h with e | e
  · exact CubicKernel_at_two_abs x e.symm
  · exact CubicKernel_outer x e

theorem CubicKernel_right_inner (x : ℝ) (h0 : 0 ≤ x) (h1 : x ≤ 1) :
    CubicKernel x = 1.5 * x ^ 3 - 2.5 * x ^ 2 + 1 := by
  have a : |x| = x := abs_of_nonneg h0
  rw [CubicKernel_inner_abs x (by rw [a]; exact h1), a]
  ring

theorem CubicKernel_right_outer (x : ℝ) (h1 : 1 ≤ x) (h2 : x ≤ 2) :
    CubicKernel x = -0.5 * x ^ 3 + 2.5 * x ^ 2 - 4 * x + 2 := by
  have a : |x| = x := abs_of_nonneg (by linarith)
  rw [CubicKernel_middle_abs x (by rw [a]; exact h1) (by rw [a]; exact h2), a]
  ring

theorem CubicKernel_left_inner (x : ℝ) (h1 : -1 ≤ x) (h0 : x ≤ 0) :
    CubicKernel x = -1.5 * x ^ 3 - 2.5 * x ^ 2 + 1 := by
  have a : |x| = -x := abs_of_nonpos h0
  rw [CubicKernel_inner_abs x (by rw [a]; linarith), a]
  ring

theorem CubicKernel_left_outer (x : ℝ) (h2 : -2 ≤ x) (h1 : x ≤ -1) :
    CubicKernel x = 0.5 * x ^ 3 + 2.5 * x ^ 2 + 4 * x + 2 := by
  have a : |x| = -x := abs_of_nonpos (by linarith)
  rw [CubicKernel_middle_abs x (by rw [a]; linarith) (by rw [a]; linarith), a]
  ring

theorem CubicKernel_right_far (x : ℝ) (h : 2 ≤ x) : CubicKernel x = 0 :=
  CubicKernel_far x (le_abs.mpr (Or.inl h))

theorem CubicKernel_left_far (x : ℝ) (h : x ≤ -2) : CubicKernel x = 0 :=
  CubicKernel_far x (le_abs.mpr (Or.inr (by linarith)))

/-- A function that agrees with `g` just left of `c` and with `h` just right of
`c`, both having derivative `d` at `c`, has derivative `d` at `c`. -/
theorem hasDerivAt_of_two_sides {f g h : ℝ → ℝ} {c d e : ℝ} (l r : ℝ) (hl : l < c)
    (hr : c < r) (hg : HasDerivAt g d c) (hh : HasDerivAt h e c) (hde : e = d)
    (eg : ∀ x, l ≤ x → x ≤ c → f x = g x) (eh : ∀ x, c ≤ x → x ≤ r → f x = h x) :
    HasDerivAt f d c := by
  subst hde
  have fl : HasDerivWithinAt f e (Set.Iic c) c := by
    refine hg.hasDerivWithinAt.congr_of_eventuallyEq ?_ (eg c hl.le (le_refl _))
    rw [Filter.EventuallyEq, eventually_nhdsWithin_iff]
    filter_upwards [Ioi_mem_nhds hl] with x hx hxc
    exact eg x (le_of_lt hx) hxc
  have fr : HasDerivWithinAt f e (Set.Ici c) c := by
    refine hh.hasDerivWithinAt.congr_of_eventuallyEq ?_ (eh c (le_refl _) hr.le)
    rw [Filter.EventuallyEq, eventually_nhdsWithin_iff]
    filter_upwards [Iio_mem_nhds hr] with x hx hxc
    exact eh x hxc (le_of_lt hx)
  have hu := fl.union fr
  rwa [Set.Iic_union_Ici, hasDerivWithinAt_univ] at hu

theorem hasDerivAt_cubic (p q r s c : ℝ) :
    HasDerivAt (fun x : ℝ => p * x ^ 3 + q * x ^ 2 + r * x + s)
      (3 * p * c ^ 2 + 2 * q * c + r) c := by
  have h3 := (hasDerivAt_pow 3 c).const_mul p
  have h2 := (hasDerivAt_pow 2 c).const_mul q
  have h1 := (hasDerivAt_id c).const_mul r
  have h := ((h3.add h2).add h1).add_const s
  convert h using 1
  simp
  ring

/-- The derivative of `CubicKernel` at every real point, branch by branch. -/
theorem CubicKernel_hasDerivAt (c : ℝ) :
    HasDerivAt (CubicKernel : ℝ → ℝ)
      (if c ≤ -2 then 0 else if c ≤ -1 then 1.5 * c ^ 2 + 5 * c + 4
      else if c ≤ 0 then -4.5 * c ^ 2 - 5 * c else if c ≤ 1 then 4.5 * c ^ 2 - 5 * c
      else if c ≤ 2 then -1.5 * c ^ 2 + 5 * c - 4 else 0) c := by
  rcases lt_trichotomy c (-2) with h0 | h0 | h0
  · have key : HasDerivAt (CubicKernel : ℝ → ℝ) _ c :=
      hasDerivAt_of_two_sides (c - 1) (-2) (by linarith) (by linarith)
        (hasDerivAt_cubic 0 0 0 0 c) (hasDerivAt_cubic 0 0 0 0 c) rfl
        (fun x _ _ => by rw [CubicKernel_left_far x (by linarith)]; ring)
        (fun x _ _ => by rw [CubicKernel_left_far x (by linarith)]; ring)
    rw [if_pos h0.le]
    convert key using 1
    ring
  · subst h0
    have key : HasDerivAt (CubicKernel : ℝ → ℝ) _ (-2) :=
      hasDerivAt_of_two_sides (-2 - 1) (-1) (by norm_num) (by norm_num)
        (hasDerivAt_cubic 0 0 0 0 (-2)) (hasDerivAt_cubic 0.5 2.5 4 2 (-2)) (by norm_num)
        (fun x _ _ => by rw [CubicKernel_left_far x (by linarith)]; ring)
        (fun x _ _ => by rw [CubicKernel_left_outer x (by linarith) (by linarith)])
    convert key using 1
    norm_num
  rcases lt_trichotomy c (-1) with h1 | h1 | h1
  · have key : HasDerivAt (CubicKernel : ℝ → ℝ) _ c :=
      hasDerivAt_of_two_sides (-2) (-1) (by linarith) (by linarith)
        (hasDerivAt_cubic 0.5 2.5 4 2 c) (hasDerivAt_cubic 0.5 2.5 4 2 c) rfl
        (fun x _ _ => by rw [CubicKernel_left_outer x (by linarith) (by linarith)])
        (fun x _ _ => by rw [CubicKernel_left_outer x (by linarith) (by linarith)])
    rw [if_neg (not_le.mpr h0), if_pos h1.le]
    convert key using 1
    ring
  · subst h1
    have key : HasDerivAt (CubicKernel : ℝ → ℝ) _ (-1) :=
      hasDerivAt_of_two_sides (-2) 0 (by norm_num) (by norm_num)
        (hasDerivAt_cubic 0.5 2.5 4 2 (-1)) (hasDerivAt_cubic (-1.5) (-2.5) 0 1 (-1))
        (by norm_num)
        (fun x _ _ => by rw [CubicKernel_left_outer x (by linarith) (by linarith)])
        (fun x _ _ => by rw [CubicKernel_left_inner x (by linarith) (by linarith)]; ring)
    convert key using 1
    norm_num
  rcases lt_trichotomy c 0 with h2 | h2 | h2
  · have key : HasDerivAt (CubicKernel : ℝ → ℝ) _ c :=
      hasDerivAt_of_two_sides (-1) 0 (by linarith) (by linarith)
        (hasDerivAt_cubic (-1.5) (-2.5) 0 1 c) (hasDerivAt_cubic (-1.5) (-2.5) 0 1 c) rfl
        (fun x _ _ => by rw [CubicKernel_left_inner x (by linarith) (by linarith)]; ring)
        (fun x _ _ => by rw [CubicKernel_left_inner x (by linarith) (by linarith)]; ring)
    rw [if_neg (not_le.mpr h0), if_neg (not_le.mpr h1), if_pos h2.le]
    convert key using 1
    ring
  · subst h2
    have key : HasDerivAt (CubicKernel : ℝ → ℝ) _ 0 :=
      hasDerivAt_of_two_sides (-1) 1 (by norm_num) (by norm_num)
        (hasDerivAt_cubic (-1.5) (-2.5) 0 1 0) (hasDerivAt_cubic 1.5 (-2.5) 0 1 0)
        (by norm_num)
        (fun x _ _ => by rw [CubicKernel_left_inner x (by linarith) (by linarith)]; ring)
        (fun x _ _ => by rw [CubicKernel_right_inner x (by linarith) (by linarith)]; ring)
    convert key using 1
    norm_num
  rcases lt_trichotomy c 1 with h3 | h3 | h3
  · have key : HasDerivAt (CubicKernel : ℝ → ℝ) _ c :=
      hasDerivAt_of_two_sides 0 1 (by linarith) (by linarith)
        (hasDerivAt_cubic 1.5 (-2.5) 0 1 c) (hasDerivAt_cubic 1.5 (-2.5) 0 1 c) rfl
        (fun x _ _ => by rw [CubicKernel_right_inner x (by linarith) (by linarith)]; ring)
        (fun x _ _ => by rw [CubicKernel_right_inner x (by linarith) (by linarith)]; ring)
    rw [if_neg (not_le.mpr h0), if_neg (not_le.mpr h1), if_neg (not_le.mpr h2), if_pos h3.le]
    convert key using 1
    ring
  · subst h3
    have key : HasDerivAt (CubicKernel : ℝ → ℝ) _ 1 :=
      hasDerivAt_of_two_sides 0 2 (by norm_num) (by norm_num)
        (hasDerivAt_cubic 1.5 (-2.5) 0 1 1) (hasDerivAt_cubic (-0.5) 2.5 (-4) 2 1)
        (by norm_num)
        (fun x _ _ => by rw [CubicKernel_right_inner x (by linarith) (by linarith)]; ring)
        (fun x _ _ => by rw [CubicKernel_right_outer x (by linarith) (by linarith)]; ring)
    convert key using 1
    norm_num
  rcases lt_trichotomy c 2 with h4 | h4 | h4
  · have key : HasDerivAt (CubicKernel : ℝ → ℝ) _ c :=
      hasDerivAt_of_two_sides 1 2 (by linarith) (by linarith)
        (hasDerivAt_cubic (-0.5) 2.5 (-4) 2 c) (hasDerivAt_cubic (-0.5) 2.5 (-4) 2 c) rfl
        (fun x _ _ => by rw [CubicKernel_right_outer x (by linarith) (by linarith)]; ring)
        (fun x _ _ => by rw [CubicKernel_right_outer x (by linarith) (by linarith)]; ring)
    rw [if_neg (not_le.mpr h0), if_neg (not_le.mpr h1), if_neg (not_le.mpr h2),
      if_neg (not_le.mpr h3), if_pos h4.le]
    convert key using 1
    ring
  · subst h4
    have key : HasDerivAt (CubicKernel : ℝ → ℝ) _ 2 :=
      hasDerivAt_of_two_sides 1 (2 + 1) (by norm_num) (by norm_num)
        (hasDerivAt_cubic (-0.5) 2.5 (-4) 2 2) (hasDerivAt_cubic 0 0 0 0 2) (by norm_num)
        (fun x _ _ => by rw [CubicKernel_right_outer x (by linarith) (by linarith)]; ring)
        (fun x _ _ => by rw [CubicKernel_right_far x (by linarith)]; ring)
    convert key using 1
    norm_num
  have key : HasDerivAt (CubicKernel : ℝ → ℝ) _ c :=
    hasDerivAt_of_two_sides 2 (c + 1) (by linarith) (by linarith)
      (hasDerivAt_cubic 0 0 0 0 c) (hasDerivAt_cubic 0 0 0 0 c) rfl
      (fun x _ _ => by rw [CubicKernel_right_far x (by linarith)]; ring)
      (fun x _ _ => by rw [CubicKernel_right_far x (by linarith)]; ring)
  rw [if_neg (not_le.mpr h0), if_neg (not_le.mpr h1), if_neg (not_le.mpr h2),
    if_neg (not_le.mpr h3), if_neg (not_le.mpr h4)]
  convert key using 1
  ring

theorem CubicKernel_deriv_continuous :
    Continuous (fun c : ℝ =>
      if c ≤ -2 then 0 else if c ≤ -1 then 1.5 * c ^ 2 + 5 * c + 4
      else if c ≤ 0 then -4.5 * c ^ 2 - 5 * c else if c ≤ 1 then 4.5 * c ^ 2 - 5 * c
      else if c ≤ 2 then -1.5 * c ^ 2 + 5 * c - 4 else 0) := by
  refine Continuous.if_le continuous_const (Continuous.if_le (by fun_prop)
    (Continuous.if_le (by fun_prop) (Continuous.if_le (by fun_prop)
      (Continuous.if_le (by fun_prop) continuous_const continuous_id continuous_const ?_)
      continuous_id continuous_const ?_) continuous_id continuous_const ?_)
    continuous_id continuous_const ?_) continuous_id continuous_const ?_
  all_goals
    intro x hx
    simp only [id] at hx
    subst hx
    norm_num

/-! ## The claims -/

/-- C1. Partition of unity of `CubicKernel`: for every real phase `t` with
`0 ≤ t < 1`, the weights at `t`, `t - 1`, `t + 1` and `t - 2` sum to exactly
one. -/
theorem CubicKernel_partition_of_unity (t : ℝ) (h0 : 0 ≤ t) (h1 : t < 1) :
    CubicKernel t + CubicKernel (t - 1) + CubicKernel (t + 1) + CubicKernel (t - 2) = 1 := by
  have a0 : |t| = t := abs_of_nonneg h0
  have a1 : |t - 1| = 1 - t := by rw [abs_of_nonpos (by linarith)]; ring
  have a2 : |t + 1| = t + 1 := abs_of_nonneg (by linarith)
  have a3 : |t - 2| = 2 - t := by rw [abs_of_nonpos (by linarith)]; ring
  rw [CubicKernel_inner t (by rw [a0]; linarith), CubicKernel_inner (t - 1) (by rw [a1]; linarith),
    CubicKernel_middle (t - 2) (by rw [a3]; linarith) (by rw [a3]; linarith), a0, a1, a3]
  rcases eq_or_lt_of_le h0 with h | h
  · subst h
    rw [CubicKernel_inner _ (by norm_num)]
    norm_num
  · rw [CubicKernel_middle (t + 1) (by rw [a2]; linarith) (by rw [a2]; linarith), a2]
    ring

theorem CubicKernel_partition_of_unity_witness :
    (0 : ℝ) ≤ 1 / 4 ∧ (1 / 4 : ℝ) < 1 ∧
      CubicKernel (1 / 4 : ℝ) + CubicKernel (1 / 4 - 1 : ℝ) + CubicKernel (1 / 4 + 1 : ℝ)
        + CubicKernel (1 / 4 - 2 : ℝ) = 1 :=
  ⟨by norm_num, by norm_num,
    CubicKernel_partition_of_unity (1 / 4) (by norm_num) (by norm_num)⟩

/-- C2. `CubicKernel` equals the three-region reference definition of the
specification, written in `a = |x|` throughout, for every real `x` (the code
squares `x` itself, with the same result); in particular
`CubicKernel 1.5 = -0.0625`. -/
theorem CubicKernel_eq_cubicReference :
    (∀ x : ℝ, CubicKernel x = cubicReference x) ∧ CubicKernel (1.5 : ℝ) = -0.0625 := by
  constructor
  · intro x
    have hx : x * x = |x| ^ 2 := by rw [sq_abs]; ring
    unfold CubicKernel cubicReference
    simp only [hx]
    norm_num
  · rw [CubicKernel_middle _ (by rw [abs_of_nonneg] <;> norm_num)
      (by rw [abs_of_nonneg] <;> norm_num), abs_of_nonneg (by norm_num)]
    norm_num

/-- C5. Support of `CubicKernel`: for every real `x` with `|x| ≥ 2` the weight
is zero, the distance `|x| = 2` included, where the second polynomial piece is
the branch evaluated. -/
theorem CubicKernel_support (x : ℝ) (h : 2 ≤ |x|) : CubicKernel x = 0 := by
  rcases eq_or_lt_of_le h with e | e
  · exact CubicKernel_at_two_abs x e.symm
  · exact CubicKernel_outer x e

theorem CubicKernel_support_witness :
    (2 : ℝ) ≤ |(-2 : ℝ)| ∧ CubicKernel (-2 : ℝ) = 0 :=
  ⟨by norm_num, CubicKernel_support (-2) (by norm_num)⟩

/-- C6. Support of `CubicSplineKernel`: for every real `x` with `|x| ≥ 2` the
weight is zero; this covers `x > 2`, `x = 2` and `x ≤ -2`. -/
theorem CubicSplineKernel_support (x : ℝ) (h : 2 ≤ |x|) : CubicSplineKernel x = 0 := by
  rcases le_abs.mp h with h1 | h1
  · rcases eq_or_lt_of_le h1 with e | e
    · rw [← e]; exact spline_at_two
    · exact spline_above x e
  · exact spline_below x (by linarith)

theorem CubicSplineKernel_support_witness :
    (2 : ℝ) ≤ |(-3 : ℝ)| ∧ CubicSplineKernel (-3 : ℝ) = 0 :=
  ⟨by norm_num, CubicSplineKernel_support (-3) (by norm_num)⟩

/-- C7. `CubicKernel` is interpolating at the integer distances: it is one at
`0` and zero at `1`, `-1`, `2` and `-2`, exactly. -/
theorem CubicKernel_integer_distances :
    CubicKernel (0 : ℝ) = 1 ∧ CubicKernel (1 : ℝ) = 0 ∧ CubicKernel (-1 : ℝ) = 0 ∧
      CubicKernel (2 : ℝ) = 0 ∧ CubicKernel (-2 : ℝ) = 0 := by
  refine ⟨?_, CubicKernel_at_one_abs 1 (by norm_num), CubicKernel_at_one_abs (-1) (by norm_num),
    CubicKernel_at_two_abs 2 (by norm_num), CubicKernel_at_two_abs (-2) (by norm_num)⟩
  rw [CubicKernel_inner 0 (by norm_num)]
  norm_num

/-- C8. Symmetry of `CubicKernel`: for every real `x`,
`CubicKernel (-x) = CubicKernel x`. -/
theorem CubicKernel_even (x : ℝ) : CubicKernel (-x) = CubicKernel x := by
  unfold CubicKernel
  simp only [abs_neg, neg_mul_neg]

/-- C9, as stated, fails on `double`: at the `double` `d = 2 - 2^-52` the
code returns a negative number for `d` and a positive number for `-d`. -/
theorem CubicSplineKernelDouble_not_even :
    roundDouble (2 - 1 / 2 ^ 52) = 2 - 1 / 2 ^ 52 ∧
      CubicSplineKernelDouble (2 - 1 / 2 ^ 52) < 0 ∧
      0 < CubicSplineKernelDouble (-(2 - 1 / 2 ^ 52)) := by
  decide!

/-- C9, amended. Symmetry of `CubicSplineKernel` in exact real arithmetic: for
every real `d`,
`CubicSplineKernel (-d) = CubicSplineKernel d`, although the code takes no
absolute value of its argument. -/
theorem CubicSplineKernel_even (d : ℝ) : CubicSplineKernel (-d) = CubicSplineKernel d := by
  rcases le_or_lt d (-2) with h | h
  · rw [spline_below d h]
    rcases eq_or_lt_of_le h with e | e
    · rw [e, neg_neg]; exact spline_at_two
    · exact spline_above (-d) (by linarith)
  rcases le_or_lt d (-1) with h1 | h1
  · rw [spline_left_outer d (by linarith) h1, spline_right_outer (-d) (by linarith) (by linarith)]
    ring
  rcases le_or_lt d 0 with h2 | h2
  · rw [spline_left_inner d (by linarith) h2, spline_right_inner (-d) (by linarith) (by linarith)]
    ring
  rcases le_or_lt d 1 with h3 | h3
  · rw [spline_right_inner d (by linarith) h3, spline_left_inner (-d) (by linarith) (by linarith)]
    ring
  rcases le_or_lt d 2 with h4 | h4
  · rw [spline_right_outer d (by linarith) h4,
      spline_left_outer (-d) (by linarith) (by linarith)]
    ring
  · rw [spline_above d h4, spline_below (-d) (by linarith)]

/-- C12. The weight at distance zero is the maximum of `CubicKernel`: for
every real `x`, `CubicKernel x ≤ CubicKernel 0`, and `CubicKernel 0 = 1`. -/
theorem CubicKernel_max_at_zero :
    (∀ x : ℝ, CubicKernel x ≤ CubicKernel 0) ∧ CubicKernel (0 : ℝ) = 1 := by
  refine ⟨fun x => ?_, CubicKernel_zero⟩
  rw [CubicKernel_zero]
  have ha : 0 ≤ |x| := abs_nonneg x
  rcases le_or_lt |x| 1 with h1 | h1
  · rw [CubicKernel_inner_abs x h1]
    nlinarith [mul_nonneg ha ha, mul_nonneg (mul_nonneg ha ha) (sub_nonneg.mpr h1)]
  rcases le_or_lt |x| 2 with h2 | h2
  · rw [CubicKernel_middle_abs x h1.le h2]
    nlinarith [mul_nonneg (sub_nonneg.mpr h1.le) (sq_nonneg (|x| - 2))]
  · rw [CubicKernel_outer x h2]
    norm_num

/-- C14. Continuity of `CubicKernel` at its breakpoints: `CubicKernel` is a
continuous function on the reals; the polynomial of the region `a ≤ 1` and the
polynomial of the region `1 < a ≤ 2` both take the value zero at `a = 1`, and
the polynomial of the region `1 < a ≤ 2` takes the value zero of the outer
region at `a = 2`. -/
theorem CubicKernel_continuous :
    Continuous (CubicKernel : ℝ → ℝ) ∧
      ((1 : ℝ) ^ 2 * (1.5 * 1 - 2.5) + 1 = 0 ∧
        (1 : ℝ) ^ 2 * (-0.5 * 1 + 2.5) - 4 * 1 + 2 = 0) ∧
      (2 : ℝ) ^ 2 * (-0.5 * 2 + 2.5) - 4 * 2 + 2 = 0 := by
  refine ⟨CubicKernel_continuous_real, ⟨?_, ?_⟩, ?_⟩ <;> norm_num

/-- C15, as stated, fails: `CubicKernel 0.5` is not `0.6875`. -/
theorem CubicKernel_at_half_ne_stated : CubicKernel (0.5 : ℝ) ≠ 0.6875 := by
  have h : |(0.5 : ℝ)| = 0.5 := abs_of_nonneg (by norm_num)
  rw [CubicKernel_inner_abs (0.5 : ℝ) (by rw [h]; norm_num), h]
  norm_num

/-- C15, amended. Concrete scenario:
`CubicKernel 0.5 = 0.5^2 * (1.5 * 0.5 - 2.5) + 1 = 0.5625`. -/
theorem CubicKernel_at_half :
    CubicKernel (0.5 : ℝ) = 0.5 ^ 2 * (1.5 * 0.5 - 2.5) + 1 ∧
      CubicKernel (0.5 : ℝ) = 0.5625 := by
  have h : |(0.5 : ℝ)| = 0.5 := abs_of_nonneg (by norm_num)
  have e : CubicKernel (0.5 : ℝ) = 0.5 ^ 2 * (1.5 * 0.5 - 2.5) + 1 := by
    rw [CubicKernel_inner_abs (0.5 : ℝ) (by rw [h]; norm_num), h]
  refine ⟨e, ?_⟩
  rw [e]; norm_num

/-- C16. First-derivative continuity of `CubicKernel` at its breakpoints: as
polynomials in `a`, the piece `a^2 * (1.5 a - 2.5) + 1` and the piece
`a^2 * (-0.5 a + 2.5) - 4 a + 2` both have derivative `-1/2` at `a = 1`, and
the second piece has derivative zero at `a = 2`; `CubicKernel` itself has
derivative `-1/2` at `1`, `1/2` at `-1` and zero at `2` and `-2`, it is
differentiable at every real point and its derivative is a continuous
function. -/
theorem CubicKernel_continuously_differentiable :
    HasDerivAt (fun a : ℝ => a ^ 2 * (1.5 * a - 2.5) + 1) (-1 / 2) 1 ∧
      HasDerivAt (fun a : ℝ => a ^ 2 * (-0.5 * a + 2.5) - 4 * a + 2) (-1 / 2) 1 ∧
      HasDerivAt (fun a : ℝ => a ^ 2 * (-0.5 * a + 2.5) - 4 * a + 2) 0 2 ∧
      HasDerivAt (CubicKernel : ℝ → ℝ) (-1 / 2) 1 ∧
      HasDerivAt (CubicKernel : ℝ → ℝ) (1 / 2) (-1) ∧
      HasDerivAt (CubicKernel : ℝ → ℝ) 0 2 ∧
      HasDerivAt (CubicKernel : ℝ → ℝ) 0 (-2) ∧
      Differentiable ℝ (CubicKernel : ℝ → ℝ) ∧
      Continuous (deriv (CubicKernel : ℝ → ℝ)) := by
  have e1 : (fun a : ℝ => a ^ 2 * (1.5 * a - 2.5) + 1)
      = fun x => 1.5 * x ^ 3 + (-2.5) * x ^ 2 + 0 * x + 1 := by
    funext a; ring
  have e2 : (fun a : ℝ => a ^ 2 * (-0.5 * a + 2.5) - 4 * a + 2)
      = fun x => (-0.5) * x ^ 3 + 2.5 * x ^ 2 + (-4) * x + 2 := by
    funext a; ring
  refine ⟨?_, ?_, ?_, ?_, ?_, ?_, ?_, ?_, ?_⟩
  · rw [e1]
    convert hasDerivAt_cubic 1.5 (-2.5) 0 1 1 using 1
    norm_num
  · rw [e2]
    convert hasDerivAt_cubic (-0.5) 2.5 (-4) 2 1 using 1
    norm_num
  · rw [e2]
    convert hasDerivAt_cubic (-0.5) 2.5 (-4) 2 2 using 1
    norm_num
  · convert CubicKernel_hasDerivAt 1 using 1
    norm_num
  · convert CubicKernel_hasDerivAt (-1) using 1
    norm_num
  · convert CubicKernel_hasDerivAt 2 using 1
    norm_num
  · convert CubicKernel_hasDerivAt (-2) using 1
    norm_num
  · exact fun x => (CubicKernel_hasDerivAt x).differentiableAt
  · have hd : deriv (CubicKernel : ℝ → ℝ) = fun c : ℝ =>
        if c ≤ -2 then 0 else if c ≤ -1 then 1.5 * c ^ 2 + 5 * c + 4
        else if c ≤ 0 then -4.5 * c ^ 2 - 5 * c else if c ≤ 1 then 4.5 * c ^ 2 - 5 * c
        else if c ≤ 2 then -1.5 * c ^ 2 + 5 * c - 4 else 0 :=
      funext fun x => (CubicKernel_hasDerivAt x).deriv
    rw [hd]
    exact CubicKernel_deriv_continuous

/-- C17, as stated, fails on `double`: at the `double` `2 - 2^-52`, inside
`(-2, 2)`, the code returns a negative number, and at the `double`
`2 - 2^-32` it returns zero. -/
theorem CubicSplineKernelDouble_negative :
    roundDouble (2 - 1 / 2 ^ 52) = 2 - 1 / 2 ^ 52 ∧
      CubicSplineKernelDouble (2 - 1 / 2 ^ 52) < 0 ∧
      roundDouble (2 - 1 / 2 ^ 32) = 2 - 1 / 2 ^ 32 ∧
      CubicSplineKernelDouble (2 - 1 / 2 ^ 32) = 0 := by
  decide!

/-- C17, amended. In exact real arithmetic `CubicSplineKernel` is
non-negative and its support is exactly the open interval `(-2, 2)`: for
every real `x`, `CubicSplineKernel x ≥ 0`, and `CubicSplineKernel x > 0` if
and only if `|x| < 2`. -/
theorem CubicSplineKernel_nonneg_support (x : ℝ) :
    0 ≤ CubicSplineKernel x ∧ (0 < CubicSplineKernel x ↔ |x| < 2) := by
  have hc : (0 : ℝ) < splineFactor := splineFactor_pos
  have ha : 0 ≤ |x| := abs_nonneg x
  rcases le_or_lt |x| 1 with h1 | h1
  · have hp : 0 < CubicSplineKernel x := by
      rw [spline_inner_abs x h1]
      refine mul_pos hc ?_
      nlinarith [mul_nonneg ha (sub_nonneg.mpr h1),
        mul_nonneg (mul_nonneg ha ha) (sub_nonneg.mpr h1)]
    exact ⟨hp.le, fun _ => by linarith, fun _ => hp⟩
  rcases lt_or_le |x| 2 with h2 | h2
  · have hp : 0 < CubicSplineKernel x := by
      rw [spline_outer_abs x h1.le h2.le]
      exact mul_pos hc (pow_pos (by linarith) 3)
    exact ⟨hp.le, fun _ => h2, fun _ => hp⟩
  · rw [spline_far_abs x h2]
    exact ⟨le_refl _, fun h => absurd h (lt_irrefl _), fun h => absurd h (not_lt.mpr h2)⟩

/-- C18, as stated, fails on `double`: at the `double` `1 + 2^-52`, strictly
between `1` and `2`, the code returns zero. -/
theorem CubicKernelDouble_zero_off_breakpoint :
    roundDouble (1 + 1 / 2 ^ 52) = 1 + 1 / 2 ^ 52 ∧
      (1 : ℚ) < 1 + 1 / 2 ^ 52 ∧ (1 + 1 / 2 ^ 52 : ℚ) < 2 ∧
      CubicKernelDouble (1 + 1 / 2 ^ 52) = 0 := by
  decide!

/-- C18, amended. Sign structure and lower bound of `CubicKernel` in exact
real arithmetic: for every real `x`
the weight is positive when `|x| < 1`; it is non-positive and equal to
`-(|x| - 1) * (|x| - 2)^2 / 2` when `1 ≤ |x| ≤ 2`; it is zero if and only if
`|x| = 1` or `|x| ≥ 2`; it is at least `-2/27`; and it equals `-2/27` when
`|x| = 4/3`. -/
theorem CubicKernel_sign_structure (x : ℝ) :
    (|x| < 1 → 0 < CubicKernel x) ∧
      (1 ≤ |x| → |x| ≤ 2 →
        CubicKernel x ≤ 0 ∧ CubicKernel x = -(|x| - 1) * (|x| - 2) ^ 2 / 2) ∧
      (CubicKernel x = 0 ↔ |x| = 1 ∨ 2 ≤ |x|) ∧
      -2 / 27 ≤ CubicKernel x ∧
      (|x| = 4 / 3 → CubicKernel x = -2 / 27) := by
  have ha : 0 ≤ |x| := abs_nonneg x
  have hpos : |x| < 1 → 0 < CubicKernel x := by
    intro h
    rw [CubicKernel_inner_abs x h.le]
    nlinarith [mul_nonneg ha (sub_nonneg.mpr h.le), mul_nonneg (mul_nonneg ha ha)
      (sub_nonneg.mpr h.le), mul_pos (sub_pos.mpr h) (sub_pos.mpr h)]
  have hmid : 1 ≤ |x| → |x| ≤ 2 →
      CubicKernel x ≤ 0 ∧ CubicKernel x = -(|x| - 1) * (|x| - 2) ^ 2 / 2 := by
    intro h1 h2
    have e := CubicKernel_middle_abs x h1 h2
    refine ⟨?_, e⟩
    rw [e]
    nlinarith [mul_nonneg (sub_nonneg.mpr h1) (sq_nonneg (|x| - 2))]
  refine ⟨hpos, hmid, ?_, ?_, ?_⟩
  · constructor
    · intro hz
      rcases lt_or_le |x| 1 with h1 | h1
      · exact absurd hz (hpos h1).ne'
      rcases lt_or_le |x| 2 with h2 | h2
      · left
        rw [CubicKernel_middle_abs x h1 h2.le] at hz
        have hne : (|x| - 2) ^ 2 ≠ 0 := pow_ne_zero 2 (by linarith)
        have hm : (|x| - 1) * (|x| - 2) ^ 2 = 0 := by linarith
        rcases mul_eq_zero.mp hm with h | h
        · linarith
        · exact absurd h hne
      · exact Or.inr h2
    · rintro (h | h)
      · exact CubicKernel_at_one_abs x h
      · rcases eq_or_lt_of_le h with e | e
        · exact CubicKernel_at_two_abs x e.symm
        · exact CubicKernel_outer x e
  · rcases lt_or_le |x| 1 with h1 | h1
    · linarith [hpos h1]
    rcases le_or_lt |x| 2 with h2 | h2
    · rw [CubicKernel_middle_abs x h1 h2]
      nlinarith [mul_nonneg (sq_nonneg (|x| - 4 / 3)) (by linarith : (0 : ℝ) ≤ 7 / 3 - |x|)]
    · rw [CubicKernel_outer x h2]
      norm_num
  · intro h
    rw [CubicKernel_middle_abs x (by rw [h]; norm_num) (by rw [h]; norm_num), h]
    norm_num

theorem CubicKernel_sign_structure_witness :
    (|(1 / 2 : ℝ)| < 1 ∧ 0 < CubicKernel (1 / 2 : ℝ)) ∧
      ((1 : ℝ) ≤ |(-3 / 2 : ℝ)| ∧ |(-3 / 2 : ℝ)| ≤ 2 ∧ CubicKernel (-3 / 2 : ℝ) ≤ 0 ∧
        CubicKernel (-3 / 2 : ℝ) = -(|(-3 / 2 : ℝ)| - 1) * (|(-3 / 2 : ℝ)| - 2) ^ 2 / 2) ∧
      (|(4 / 3 : ℝ)| = 4 / 3 ∧ CubicKernel (4 / 3 : ℝ) = -2 / 27) := by
  have a1 : |(1 / 2 : ℝ)| = 1 / 2 := abs_of_nonneg (by norm_num)
  have a2 : |(-3 / 2 : ℝ)| = 3 / 2 := by rw [abs_of_nonpos (by norm_num)]; norm_num
  have a3 : |(4 / 3 : ℝ)| = 4 / 3 := abs_of_nonneg (by norm_num)
  have h1 : |(1 / 2 : ℝ)| < 1 := by rw [a1]; norm_num
  have h2 : (1 : ℝ) ≤ |(-3 / 2 : ℝ)| := by rw [a2]; norm_num
  have h3 : |(-3 / 2 : ℝ)| ≤ 2 := by rw [a2]; norm_num
  exact ⟨⟨h1, (CubicKernel_sign_structure (1 / 2)).1 h1⟩,
    ⟨h2, h3, (CubicKernel_sign_structure (-3 / 2)).2.1 h2 h3⟩,
    ⟨a3, (CubicKernel_sign_structure (4 / 3)).2.2.2.2 a3⟩⟩

/-- C19, as stated, fails on `double`: for the `double`s `x = 2 - 2^-52` and
`y = 2`, with `0 ≤ x ≤ y`, the code returns a negative number at `x` and zero
at `y`. -/
theorem CubicSplineKernelDouble_not_antitone :
    roundDouble (2 - 1 / 2 ^ 52) = 2 - 1 / 2 ^ 52 ∧
      (0 : ℚ) ≤ 2 - 1 / 2 ^ 52 ∧ (2 - 1 / 2 ^ 52 : ℚ) ≤ 2 ∧
      ¬ CubicSplineKernelDouble 2 ≤ CubicSplineKernelDouble (2 - 1 / 2 ^ 52) := by
  decide!

/-- C19, amended. In exact real arithmetic `CubicSplineKernel` is
non-increasing in the distance on the non-negative reals: for all real `x`,
`y` with `0 ≤ x ≤ y`, `CubicSplineKernel y ≤ CubicSplineKernel x`. -/
theorem CubicSplineKernel_antitone (x y : ℝ) (h0 : 0 ≤ x) (hxy : x ≤ y) :
    CubicSplineKernel y ≤ CubicSplineKernel x := by
  have hc : (0 : ℝ) < splineFactor := splineFactor_pos
  rcases le_or_lt y 1 with hy1 | hy1
  · rw [spline_right_inner x h0 (by linarith), spline_right_inner y (by linarith) hy1]
    have hd : 0 ≤ y - x := sub_nonneg.mpr hxy
    have hy0 : 0 ≤ y := by linarith
    have hp : 4 - 6 * y ^ 2 + 3 * y ^ 3 ≤ 4 - 6 * x ^ 2 + 3 * x ^ 3 := by
      nlinarith [mul_nonneg hd (mul_nonneg hy0 (sub_nonneg.mpr hy1)),
        mul_nonneg hd (mul_nonneg h0 (sub_nonneg.mpr hy1)),
        mul_nonneg hd (mul_nonneg h0 (sub_nonneg.mpr (by linarith : x ≤ 1))),
        mul_nonneg hd h0, mul_nonneg hd hy0]
    exact mul_le_mul_of_nonneg_left hp hc.le
  rcases le_or_lt y 2 with hy2 | hy2
  · rcases le_or_lt x 1 with hx1 | hx1
    · exact (spline_outer_le y hy1.le hy2).trans (spline_inner_ge x h0 hx1)
    · rw [spline_right_outer x hx1.le (by linarith), spline_right_outer y hy1.le hy2]
      have hb : (2 - y) ^ 3 ≤ (2 - x) ^ 3 := pow_le_pow_left₀ (by linarith) (by linarith) 3
      exact mul_le_mul_of_nonneg_left hb hc.le
  · rw [spline_above y hy2]
    rcases le_or_lt x 1 with hx1 | hx1
    · linarith [spline_inner_ge x h0 hx1]
    rcases le_or_lt x 2 with hx2 | hx2
    · exact spline_outer_nonneg x hx1.le hx2
    · rw [spline_above x hx2]

theorem CubicSplineKernel_antitone_witness :
    (0 : ℝ) ≤ 1 / 2 ∧ (1 / 2 : ℝ) ≤ 3 / 2 ∧
      CubicSplineKernel (3 / 2 : ℝ) ≤ CubicSplineKernel (1 / 2 : ℝ) :=
  ⟨by norm_num, by norm_num,
    CubicSplineKernel_antitone (1 / 2) (3 / 2) (by norm_num) (by norm_num)⟩

end GdalResamplingKernels
